import Mathlib

/-!
Verification development for `scripts/execute_notebooks_ci.py`.

The script is a thin CI driver over Jupyter notebooks: it parses a
comma-separated skip-tag option, discovers notebook files by glob,
filters out cells whose tags meet the skip set, and runs each notebook
sequentially, printing a timing summary only when every notebook
succeeds.

We shallowly embed the Python code: loosely typed notebook JSON values
become the inductive `PyVal`; Python exceptions become `Except CiError`;
Python sets of strings become `Finset String`; wall-clock seconds and
the external execution engine (`nbformat.read` / `NotebookClient`) are
abstract parameters of the driver model.
-/

/-- A Python/JSON value as manipulated by the script (notebook documents,
cells, metadata, tag lists). -/
inductive PyVal where
  | none
  | bool (b : Bool)
  | int (n : Int)
  | str (s : String)
  | list (xs : List PyVal)
  | dict (entries : List (String × PyVal))

/-- The fatal error conditions of the script: the explicit no-match
`SystemExit`, Python `TypeError` / `AttributeError` raised by the cell
filter on malformed values, and errors propagated from the external
read/execute engine. -/
inductive CiError where
  | noMatch (globs : List String)
  | typeError
  | attributeError
  | external (msg : String)
deriving DecidableEq

/-- Python truthiness for the values of `PyVal` (used by the `or {}` /
`or []` defaults and by `if skipped:`). -/
def truthy : PyVal → Bool
  | .none => false
  | .bool b => b
  | .int n => !(n == 0)
  | .str s => !s.isEmpty
  | .list xs => !xs.isEmpty
  | .dict es => !es.isEmpty

/-- `d.get(k)` on a Python dict represented as an association list
(first matching key wins; real dicts have unique keys). -/
def lookupStr (k : String) : List (String × PyVal) → Option PyVal
  | [] => Option.none
  | (k', v) :: rest => if k' = k then some v else lookupStr k rest

/-- `d[k] = v` on a Python dict: replace the value in place if the key
exists (keeping its position), otherwise append the new pair. -/
def dictSet (k : String) (v : PyVal) : List (String × PyVal) → List (String × PyVal)
  | [] => [(k, v)]
  | (k', v') :: rest => if k' = k then (k, v) :: rest else (k', v') :: dictSet k v rest

/-- Python iteration as used by `set(x)` and `for cell in cells`: lists
yield their elements, strings their characters, dicts their keys; other
values raise `TypeError`. -/
def pyIter : PyVal → Except CiError (List PyVal)
  | .list xs => .ok xs
  | .str s => .ok (s.data.map (fun c => .str (String.mk [c])))
  | .dict es => .ok (es.map (fun kv => .str kv.1))
  | _ => .error .typeError

/-- Python hashability of the values of `PyVal`: `set()` accepts
`None`, booleans, numbers and strings, but raises `TypeError` on lists
and dicts ("unhashable type"). -/
def pyHashable : PyVal → Bool
  | .list _ => false
  | .dict _ => false
  | _ => true

/-- The `set(x)` constructor: iterate `x`, requiring every produced
element to be hashable; an unhashable element raises `TypeError`. (The
result is kept as the element list — de-duplication is immaterial to
every property stated here, which only tests membership.) -/
def pySet (v : PyVal) : Except CiError (List PyVal) :=
  match pyIter v with
  | .error e => .error e
  | .ok xs => if xs.all pyHashable then .ok xs else .error .typeError

/-- Truthiness of `tags.intersection(skip_tags)`: the extracted tag list
meets the (string) skip set. Only string tags can equal a string. -/
def tagsIntersect (ts : List PyVal) (skip : Finset String) : Bool :=
  ts.any fun v =>
    match v with
    | .str s => decide (s ∈ skip)
    | _ => false

/-- The tag-extraction of `_filter_cells_by_tag` for one cell:
`meta = cell.get("metadata", {}) or {}` then
`tags = set(meta.get("tags", []) or [])`. -/
def cellTags (cell : PyVal) : Except CiError (List PyVal) :=
  match cell with
  | .dict ce =>
      let meta0 := (lookupStr "metadata" ce).getD (.dict [])
      let meta := if truthy meta0 then meta0 else PyVal.dict []
      match meta with
      | .dict me =>
          let tags0 := (lookupStr "tags" me).getD (.list [])
          let tagsV := if truthy tags0 then tags0 else PyVal.list []
          pySet tagsV
      | _ => .error .attributeError
  | _ => .error .attributeError

/-- The cell loop of `_filter_cells_by_tag`: drop each cell whose tags
meet the skip set, keep the rest in order, count the dropped ones. -/
def filterCells (skip : Finset String) : List PyVal → Except CiError (List PyVal × Nat)
  | [] => .ok ([], 0)
  | cell :: rest =>
      match cellTags cell with
      | .error e => .error e
      | .ok ts =>
          match filterCells skip rest with
          | .error e => .error e
          | .ok (kept, n) =>
              if tagsIntersect ts skip then .ok (kept, n + 1) else .ok (cell :: kept, n)

/-- `_filter_cells_by_tag(nb, skip_tags)`: empty skip set is a no-op
fast path; otherwise rebuild `nb["cells"]` from the kept cells and
return the skip count. -/
def _filter_cells_by_tag (nb : PyVal) (skip : Finset String) : Except CiError (PyVal × Nat) :=
  if skip = ∅ then .ok (nb, 0)
  else
    match nb with
    | .dict entries =>
        match pyIter ((lookupStr "cells" entries).getD (.list [])) with
        | .error e => .error e
        | .ok cells =>
            match filterCells skip cells with
            | .error e => .error e
            | .ok (kept, n) => .ok (.dict (dictSet "cells" (.list kept) entries), n)
    | _ => .error .attributeError

example :
    _filter_cells_by_tag
      (PyVal.dict [("cells", PyVal.list
        [PyVal.dict [("metadata", PyVal.dict [("tags", PyVal.list [PyVal.str "slow"])])],
         PyVal.dict []])])
      ({"slow"} : Finset String)
    = Except.ok (PyVal.dict [("cells", PyVal.list [PyVal.dict []])], 1) := by
  rfl

example :
    cellTags (PyVal.dict
      [("metadata", PyVal.dict [("tags", PyVal.list [PyVal.list [PyVal.str "a"]])])])
    = Except.error CiError.typeError := by
  rfl

example :
    _filter_cells_by_tag
      (PyVal.dict [("cells", PyVal.list
        [PyVal.dict [("metadata", PyVal.dict
          [("tags", PyVal.list [PyVal.list [PyVal.str "a"]])])]])])
      ({"slow"} : Finset String)
    = Except.error CiError.typeError := by
  rfl

/-! ### String primitives

The script uses `str.split(",")`, `str.strip()`, `Path(...).name` and
`Path(...).suffix`. We implement them over `List Char` so that every
step is a plain structural recursion. -/

/-- `s.split(c)` on character lists: split at every separator, keeping
empty pieces; the empty input gives one empty piece, as in Python. -/
def splitChar (c : Char) : List Char → List (List Char)
  | [] => [[]]
  | a :: rest =>
      match splitChar c rest with
      | [] => [[]]
      | r :: rs => if a = c then [] :: r :: rs else (a :: r) :: rs

/-- `s.strip()` on character lists: drop leading and trailing
whitespace. -/
def trimChar (l : List Char) : List Char :=
  (((l.dropWhile Char.isWhitespace).reverse).dropWhile Char.isWhitespace).reverse

/-- `sep.join(pieces)` on character lists. -/
def intercalateChar (sep : List Char) : List (List Char) → List Char
  | [] => []
  | [p] => p
  | p :: q :: rest => p ++ sep ++ intercalateChar sep (q :: rest)

/-- `_parse_tags(value)`: empty input gives the empty set, otherwise the
set comprehension over `value.split(",")` keeps the stripped pieces that
are non-empty after stripping. -/
def _parse_tags (value : String) : Finset String :=
  if value = "" then ∅
  else
    (((splitChar ',' value.data).filter (fun t => trimChar t ≠ [])).map
      (fun t => String.mk (trimChar t))).toFinset

example : _parse_tags "" = ∅ := by rfl
example : _parse_tags " , , " = ∅ := by decide
example : _parse_tags "slow, ci-skip ,slow" = {"slow", "ci-skip"} := by decide

/-- `Path(s).name`: the final path component. -/
def pathName (s : String) : String :=
  String.mk ((splitChar '/' s.data).getLastD [])

/-- `Path(s).suffix` on the name's characters: the part from the last
dot on, unless that dot is the first or last character of the name. -/
def pySuffix (n : List Char) : List Char :=
  let after := n.reverse.takeWhile (fun c => c ≠ '.')
  if 0 < after.length ∧ after.length + 1 < n.length then '.' :: after.reverse else []

/-- `Path(s).suffix`. -/
def pathSuffix (s : String) : String :=
  String.mk (pySuffix (pathName s).data)

example : pathSuffix "/home/a/b.ipynb" = ".ipynb" := by decide
example : pathSuffix "/home/a/.bashrc" = "" := by decide
example : pathSuffix "/home/a/b.tar.gz" = ".gz" := by decide

/-! ### Notebook discovery -/

/-- The filesystem facts `_iter_notebooks` consults: `glob.glob`,
`Path.resolve`, and `Path.is_file`, kept abstract. -/
structure FS where
  globMatches : String → List String
  resolve : String → String
  isFile : String → Bool

/-- The de-duplication loop of `_iter_notebooks`: skip paths already
seen; record a new path only if it is a regular file with the notebook
extension. -/
def iterAux (fs : FS) : List String → List String → List String
  | _, [] => []
  | seen, p :: rest =>
      if p ∈ seen then iterAux fs seen rest
      else if fs.isFile p = true ∧ pathSuffix p = ".ipynb" then
        p :: iterAux fs (p :: seen) rest
      else iterAux fs seen rest

/-- `_iter_notebooks(globs)`: expand each pattern, resolve the matches,
then de-duplicate keeping first-seen order and only notebook files. -/
def _iter_notebooks (fs : FS) (globs : List String) : List String :=
  iterAux fs [] ((globs.map fun pat => (fs.globMatches pat).map fs.resolve).flatten)

/-- Modelled from the spec: "a de-duplicated sequence preserving
first-seen order across patterns" — keep the first occurrence of each
path, dropping later repeats. Used to compare `_iter_notebooks` against
the spec's description. -/
def specFirstSeenAux : List String → List String → List String
  | _, [] => []
  | seen, p :: rest =>
      if p ∈ seen then specFirstSeenAux seen rest
      else p :: specFirstSeenAux (p :: seen) rest

/-- Modelled from the spec: first-occurrence de-duplication. -/
def specFirstSeen (l : List String) : List String :=
  specFirstSeenAux [] l

/-! ### Driver model

`nbformat.read` and `NotebookClient.execute` are external; they appear
as abstract parameters `readNb` and `clientExec`. Wall-clock elapsed
seconds are abstracted as a per-path value `sec`. Console output is
modelled as a trace of `Event`s. -/

/-- The `RunResult` dataclass: a path paired with its elapsed seconds
(abstracted to `Nat`). -/
structure RunResult where
  path : String
  seconds : Nat
deriving DecidableEq

/-- One printed line of the script. -/
inductive Event where
  | executing (path : String)
  | skipped (name : String) (count : Nat)
  | summaryHeader
  | summaryLine (name : String) (seconds : Nat)
  | total (seconds : Nat)
deriving DecidableEq

/-- `execute_notebook`: read the notebook, filter its cells, print the
skip-count line when any cell was dropped, then hand the document to the
external client; any error aborts. -/
def execute_notebook (readNb : String → Except CiError PyVal)
    (clientExec : PyVal → Except CiError Unit)
    (sec : String → Nat) (skip_tags : Finset String)
    (path : String) : List Event × Except CiError RunResult :=
  match readNb path with
  | .error e => ([], .error e)
  | .ok nb =>
      match _filter_cells_by_tag nb skip_tags with
      | .error e => ([], .error e)
      | .ok (nb2, skipped) =>
          let evs := if skipped ≠ 0 then [Event.skipped (pathName path) skipped] else []
          match clientExec nb2 with
          | .error e => (evs, .error e)
          | .ok _ => (evs, .ok ⟨path, sec path⟩)

/-- The sequential notebook loop of `main`: print the progress line,
run the notebook, stop at the first failure. Returns the printed
events, the accumulated run results, and the error, if any. -/
def runLoop (ex : String → List Event × Except CiError RunResult) :
    List String → List Event × List RunResult × Option CiError
  | [] => ([], [], Option.none)
  | p :: rest =>
      let (evs, res) := ex p
      match res with
      | .error e => (Event.executing p :: evs, [], some e)
      | .ok r =>
          let (evs2, rs, err) := runLoop ex rest
          (Event.executing p :: (evs ++ evs2), r :: rs, err)

/-- Is an `Except` a success? -/
def isOkE {α : Type} : Except CiError α → Bool
  | .ok _ => true
  | .error _ => false

/-- The tag list a cell yields when extraction succeeds (empty on
extraction failure; only used under a success hypothesis). -/
def tagsOf (cell : PyVal) : List PyVal :=
  match cellTags cell with
  | .ok ts => ts
  | .error _ => []

/-- The string entries of a Python value, as an option. -/
def pyStrProj : PyVal → Option String
  | .str s => some s
  | _ => Option.none

/-- A cell's extracted tag set, restricted to its string elements (the
only elements that can ever equal a member of the string skip set). -/
def strTags (cell : PyVal) : Finset String :=
  ((tagsOf cell).filterMap pyStrProj).toFinset

/-- `main`: parse the skip tags, discover the notebooks, fail fast on an
empty match, run the loop, and print the summary block only when every
notebook succeeded. The result is the printed trace plus the fatal
error, if any (a `some` error means a non-zero exit status). -/
def mainRun (fs : FS) (readNb : String → Except CiError PyVal)
    (clientExec : PyVal → Except CiError Unit) (sec : String → Nat)
    (globs : List String) (skipTagsStr : String) : List Event × Option CiError :=
  let skip_tags := _parse_tags skipTagsStr
  let notebooks := _iter_notebooks fs globs
  if notebooks = [] then ([], some (.noMatch globs))
  else
    match runLoop (execute_notebook readNb clientExec sec skip_tags) notebooks with
    | (evs, _, some e) => (evs, some e)
    | (evs, results, Option.none) =>
        (evs ++ Event.summaryHeader ::
          (results.map (fun r => Event.summaryLine (pathName r.path) r.seconds) ++
            [Event.total (results.map RunResult.seconds).sum]), Option.none)

/-! ### Helper lemmas about the cell filter -/

lemma isOkE_iff {α : Type} (e : Except CiError α) : isOkE e = true ↔ ∃ a, e = .ok a := by
  cases e <;> simp [isOkE]

lemma tagsIntersect_eq_true_iff (ts : List PyVal) (skip : Finset String) :
    tagsIntersect ts skip = true ↔ ((ts.filterMap pyStrProj).toFinset ∩ skip) ≠ ∅ := by
  rw [← Finset.nonempty_iff_ne_empty]
  simp only [tagsIntersect, List.any_eq_true, Finset.Nonempty, Finset.mem_inter,
    List.mem_toFinset, List.mem_filterMap]
  constructor
  · rintro ⟨v, hv, hmatch⟩
    cases v with
    | str s => exact ⟨s, ⟨PyVal.str s, hv, rfl⟩, by simpa using hmatch⟩
    | none => simp at hmatch
    | bool b => simp at hmatch
    | int n => simp at hmatch
    | list xs => simp at hmatch
    | dict es => simp at hmatch
  · rintro ⟨s, ⟨v, hv, hproj⟩, hs⟩
    refine ⟨v, hv, ?_⟩
    cases v <;> simp [pyStrProj] at hproj
    subst hproj
    simpa using hs

lemma tagsIntersect_eq (c : PyVal) (skip : Finset String) :
    tagsIntersect (tagsOf c) skip = decide (strTags c ∩ skip ≠ ∅) := by
  have hiff : tagsIntersect (tagsOf c) skip = true ↔ strTags c ∩ skip ≠ ∅ :=
    tagsIntersect_eq_true_iff (tagsOf c) skip
  by_cases h : strTags c ∩ skip = ∅
  · have hne : tagsIntersect (tagsOf c) skip ≠ true := fun ht => (hiff.1 ht) h
    simp [h, Bool.eq_false_iff.2 hne]
  · simp [h, hiff.2 h]

lemma not_tagsIntersect_eq (c : PyVal) (skip : Finset String) :
    (!tagsIntersect (tagsOf c) skip) = decide (strTags c ∩ skip = ∅) := by
  rw [tagsIntersect_eq]
  by_cases h : strTags c ∩ skip = ∅ <;> simp [h]

lemma filterCells_eq (skip : Finset String) (cells : List PyVal)
    (hok : ∀ c ∈ cells, isOkE (cellTags c) = true) :
    filterCells skip cells =
      .ok (cells.filter (fun c => !tagsIntersect (tagsOf c) skip),
           cells.countP (fun c => tagsIntersect (tagsOf c) skip)) := by
  induction cells with
  | nil => simp [filterCells]
  | cons c rest ih =>
      obtain ⟨ts, hts⟩ := (isOkE_iff _).1 (hok c (by simp))
      have hrest := ih (fun d hd => hok d (by simp [hd]))
      have htags : tagsOf c = ts := by simp [tagsOf, hts]
      rcases h : tagsIntersect ts skip with _ | _ <;>
        simp [filterCells, hts, hrest, List.filter_cons, List.countP_cons, htags, h]

lemma filterCells_sublist (skip : Finset String) (cells kept : List PyVal) (n : Nat)
    (h : filterCells skip cells = .ok (kept, n)) : kept.Sublist cells := by
  induction cells generalizing kept n with
  | nil =>
      simp [filterCells] at h
      simp [h.1]
  | cons c rest ih =>
      rcases hc : cellTags c with e | ts
      · simp [filterCells, hc] at h
      · rcases hr : filterCells skip rest with e | ⟨kept2, n2⟩
        · simp [filterCells, hc, hr] at h
        · rcases hint : tagsIntersect ts skip with _ | _
          · simp [filterCells, hc, hr, hint] at h
            rcases h with ⟨h1, h2⟩
            rw [← h1]
            exact (ih kept2 n2 hr).cons₂ c
          · simp [filterCells, hc, hr, hint] at h
            rcases h with ⟨h1, h2⟩
            rw [← h1]
            exact (ih kept2 n2 hr).cons c

lemma filterCells_length (skip : Finset String) (cells kept : List PyVal) (n : Nat)
    (h : filterCells skip cells = .ok (kept, n)) : n + kept.length = cells.length := by
  induction cells generalizing kept n with
  | nil =>
      simp [filterCells] at h
      simp [h.1, h.2]
  | cons c rest ih =>
      rcases hc : cellTags c with e | ts
      · simp [filterCells, hc] at h
      · rcases hr : filterCells skip rest with e | ⟨kept2, n2⟩
        · simp [filterCells, hc, hr] at h
        · rcases hint : tagsIntersect ts skip with _ | _
          · simp [filterCells, hc, hr, hint] at h
            rcases h with ⟨h1, h2⟩
            have := ih kept2 n2 hr
            simp [← h1, ← h2]
            omega
          · simp [filterCells, hc, hr, hint] at h
            rcases h with ⟨h1, h2⟩
            have := ih kept2 n2 hr
            simp [← h1, ← h2]
            omega

lemma lookupStr_dictSet_self (k : String) (v : PyVal) (entries : List (String × PyVal)) :
    lookupStr k (dictSet k v entries) = some v := by
  induction entries with
  | nil => simp [dictSet, lookupStr]
  | cons kv rest ih =>
      rcases kv with ⟨k', v'⟩
      by_cases hk : k' = k
      · subst hk
        simp [dictSet, lookupStr]
      · simp [dictSet, lookupStr, hk, ih]

lemma lookupStr_dictSet_ne (k k0 : String) (v : PyVal) (entries : List (String × PyVal))
    (hne : k ≠ k0) : lookupStr k (dictSet k0 v entries) = lookupStr k entries := by
  induction entries with
  | nil => simp [dictSet, lookupStr, Ne.symm hne]
  | cons kv rest ih =>
      rcases kv with ⟨k', v'⟩
      by_cases hk : k' = k0
      · subst hk
        simp [dictSet, lookupStr, Ne.symm hne]
      · simp only [dictSet, if_neg hk, lookupStr]
        by_cases hk2 : k' = k <;> simp [hk2, ih]

/-! ### Claims about the Cell Filter -/

/-- C1: for a notebook document with a cells list and a non-empty skip
set, when every cell's tag extraction succeeds (metadata access and the
`set()` construction, including its hashability check, raise no
exception), the filter keeps a cell iff
its extracted tag set does not meet the skip set; kept cells stay in
their original relative order (`List.filter`) and the returned count is
the number of dropped cells (`List.countP`). -/
theorem C1_cell_filter_keep_iff_disjoint (entries : List (String × PyVal))
    (cells : List PyVal) (skip : Finset String)
    (hskip : skip ≠ ∅)
    (hcells : lookupStr "cells" entries = some (PyVal.list cells))
    (hok : ∀ c ∈ cells, isOkE (cellTags c) = true) :
    _filter_cells_by_tag (PyVal.dict entries) skip =
      Except.ok
        (PyVal.dict (dictSet "cells"
            (PyVal.list (cells.filter fun c => decide (strTags c ∩ skip = ∅))) entries),
         cells.countP fun c => decide (strTags c ∩ skip ≠ ∅)) := by
  have hfc := filterCells_eq skip cells hok
  have hfilter : (cells.filter fun c => !tagsIntersect (tagsOf c) skip)
      = cells.filter fun c => decide (strTags c ∩ skip = ∅) := by
    apply List.filter_congr
    intro c hc
    rw [not_tagsIntersect_eq]
  have hcount : (cells.countP fun c => tagsIntersect (tagsOf c) skip)
      = cells.countP fun c => decide (strTags c ∩ skip ≠ ∅) := by
    rw [List.countP_eq_length_filter, List.countP_eq_length_filter]
    congr 1
    apply List.filter_congr
    intro c hc
    rw [tagsIntersect_eq]
  simp only [_filter_cells_by_tag, if_neg hskip, hcells, Option.getD_some, pyIter, hfc,
    hfilter, hcount]

/-- Witness for C1: the spec's own example — three cells, only the
second tagged `slow`; filtering with skip set `{slow}` keeps cells one
and three in order and reports one dropped cell. -/
theorem C1_witness :
    _filter_cells_by_tag
      (PyVal.dict [("nbformat", PyVal.int 4), ("cells", PyVal.list
        [PyVal.dict [("source", PyVal.str "a")],
         PyVal.dict [("metadata", PyVal.dict [("tags", PyVal.list [PyVal.str "slow"])])],
         PyVal.dict [("metadata", PyVal.dict [("tags", PyVal.list [PyVal.str "fast"])])]])])
      ({"slow"} : Finset String) =
      Except.ok
        (PyVal.dict (dictSet "cells"
            (PyVal.list
              ([PyVal.dict [("source", PyVal.str "a")],
                PyVal.dict [("metadata", PyVal.dict [("tags", PyVal.list [PyVal.str "slow"])])],
                PyVal.dict [("metadata", PyVal.dict [("tags", PyVal.list [PyVal.str "fast"])])]].filter
                  fun c => decide (strTags c ∩ ({"slow"} : Finset String) = ∅)))
            [("nbformat", PyVal.int 4), ("cells", PyVal.list
              [PyVal.dict [("source", PyVal.str "a")],
               PyVal.dict [("metadata", PyVal.dict [("tags", PyVal.list [PyVal.str "slow"])])],
               PyVal.dict [("metadata", PyVal.dict [("tags", PyVal.list [PyVal.str "fast"])])]])]),
         [PyVal.dict [("source", PyVal.str "a")],
          PyVal.dict [("metadata", PyVal.dict [("tags", PyVal.list [PyVal.str "slow"])])],
          PyVal.dict [("metadata", PyVal.dict [("tags", PyVal.list [PyVal.str "fast"])])]].countP
            fun c => decide (strTags c ∩ ({"slow"} : Finset String) ≠ ∅)) :=
  C1_cell_filter_keep_iff_disjoint _ _ _ (by decide) rfl (by decide)

/-- C2 counterexample: a truthy non-iterable `tags` value (the integer
`1`) does not yield an empty tag set — extraction raises `TypeError`
and the filter aborts instead of keeping the cell; a truthy string
`tags` value is iterated as its characters, so with skip set `{a}` the
cell with `tags: "ab"` is dropped, not kept. -/
theorem C2_counterexample :
    cellTags (PyVal.dict [("metadata", PyVal.dict [("tags", PyVal.int 1)])])
        = Except.error CiError.typeError
    ∧ filterCells ({"slow"} : Finset String)
        [PyVal.dict [("metadata", PyVal.dict [("tags", PyVal.int 1)])]]
        = Except.error CiError.typeError
    ∧ cellTags (PyVal.dict [("metadata", PyVal.dict [("tags", PyVal.str "ab")])])
        = Except.ok [PyVal.str "a", PyVal.str "b"]
    ∧ _filter_cells_by_tag
        (PyVal.dict [("cells", PyVal.list
          [PyVal.dict [("metadata", PyVal.dict [("tags", PyVal.str "ab")])]])])
        ({"a"} : Finset String)
        = Except.ok (PyVal.dict [("cells", PyVal.list [])], 1) :=
  ⟨rfl, rfl, rfl, rfl⟩

/-- C2 (amended): when the cell's metadata is absent or falsy, or its
tags field is absent or falsy (e.g. `null` or an empty list), the
extracted tag set is empty and the cell is kept whatever the skip set.
(Truthy non-sequence tags values are not defaulted: they raise, or are
iterated as characters.) -/
theorem C2_cell_filter_default_empty_tags (ce : List (String × PyVal)) (skip : Finset String)
    (h : truthy ((lookupStr "metadata" ce).getD (PyVal.dict [])) = false
       ∨ ∃ me, (lookupStr "metadata" ce).getD (PyVal.dict []) = PyVal.dict me
           ∧ truthy ((lookupStr "tags" me).getD (PyVal.list [])) = false) :
    cellTags (PyVal.dict ce) = Except.ok []
    ∧ filterCells skip [PyVal.dict ce] = Except.ok ([PyVal.dict ce], 0) := by
  have htags : cellTags (PyVal.dict ce) = Except.ok [] := by
    rcases h with h | ⟨me, hme, htags0⟩
    · simp only [cellTags, h]
      simp [lookupStr, truthy, pySet, pyIter, pyHashable]
    · by_cases ht : truthy (PyVal.dict me) = true
      · simp only [cellTags, hme, ht, if_true]
        rw [htags0]
        simp [pySet, pyIter, pyHashable]
      · have ht' : truthy (PyVal.dict me) = false := by simpa using ht
        simp only [cellTags, hme, ht']
        simp [lookupStr, truthy, pySet, pyIter, pyHashable]
  refine ⟨htags, ?_⟩
  simp [filterCells, htags, tagsIntersect]

/-- Witness for C2's amended theorem: a cell whose `tags` is `null`
yields the empty tag set and survives filtering with skip set
`{slow}`. -/
theorem C2_witness :
    cellTags (PyVal.dict [("metadata", PyVal.dict [("tags", PyVal.none)])]) = Except.ok []
    ∧ filterCells ({"slow"} : Finset String)
        [PyVal.dict [("metadata", PyVal.dict [("tags", PyVal.none)])]]
        = Except.ok ([PyVal.dict [("metadata", PyVal.dict [("tags", PyVal.none)])]], 0) :=
  C2_cell_filter_default_empty_tags _ _ (Or.inr ⟨[("tags", PyVal.none)], rfl, rfl⟩)

/-- C3: filtering with an empty skip set is the no-op fast path — it
returns the very same document value and a skip count of zero, for
every document. -/
theorem C3_cell_filter_empty_skip_noop (nb : PyVal) :
    _filter_cells_by_tag nb ∅ = Except.ok (nb, 0) := by
  simp [_filter_cells_by_tag]

/-- C4: the filter changes at most the `cells` entry — every other key
keeps its original value, the result still holds a cells list, and the
kept cells are (in order) a sublist of the original cells, each kept
cell being the unmodified input cell. -/
theorem C4_cell_filter_frame (entries : List (String × PyVal)) (cells : List PyVal)
    (skip : Finset String) (nb2 : PyVal) (n : Nat)
    (hcells : lookupStr "cells" entries = some (PyVal.list cells))
    (h : _filter_cells_by_tag (PyVal.dict entries) skip = Except.ok (nb2, n)) :
    ∃ entries2 kept, nb2 = PyVal.dict entries2
      ∧ (∀ k, k ≠ "cells" → lookupStr k entries2 = lookupStr k entries)
      ∧ lookupStr "cells" entries2 = some (PyVal.list kept)
      ∧ kept.Sublist cells := by
  by_cases hskip : skip = ∅
  · simp [_filter_cells_by_tag, hskip] at h
    refine ⟨entries, cells, ?_, fun k hk => rfl, hcells, List.Sublist.refl cells⟩
    exact h.1.symm
  · simp only [_filter_cells_by_tag, if_neg hskip, hcells, Option.getD_some, pyIter] at h
    rcases hfc : filterCells skip cells with e | ⟨kept, m⟩
    · rw [hfc] at h
      simp at h
    · rw [hfc] at h
      simp at h
      refine ⟨dictSet "cells" (PyVal.list kept) entries, kept, h.1.symm, ?_, ?_, ?_⟩
      · intro k hk
        exact lookupStr_dictSet_ne k "cells" _ entries hk
      · exact lookupStr_dictSet_self "cells" (PyVal.list kept) entries
      · exact filterCells_sublist skip cells kept m hfc

/-- Witness for C4: a concrete two-key document filtered with `{slow}`;
the non-cells key survives and the kept cells are a sublist of the
input cells. -/
theorem C4_witness :
    ∃ entries2 kept,
      PyVal.dict (dictSet "cells" (PyVal.list []) [("nbformat", PyVal.int 4),
          ("cells", PyVal.list
            [PyVal.dict [("metadata", PyVal.dict [("tags", PyVal.list [PyVal.str "slow"])])]])])
        = PyVal.dict entries2
      ∧ (∀ k, k ≠ "cells" → lookupStr k entries2 =
          lookupStr k [("nbformat", PyVal.int 4),
            ("cells", PyVal.list
              [PyVal.dict [("metadata", PyVal.dict [("tags", PyVal.list [PyVal.str "slow"])])]])])
      ∧ lookupStr "cells" entries2 = some (PyVal.list kept)
      ∧ kept.Sublist
          [PyVal.dict [("metadata", PyVal.dict [("tags", PyVal.list [PyVal.str "slow"])])]] :=
  C4_cell_filter_frame _ _ ({"slow"} : Finset String) _ 1 rfl rfl

/-- C10: with a non-empty skip set, the returned count plus the length
of the new cells list equals the original length; and on a document
lacking a `cells` key the filter writes an empty cells list and returns
count zero. -/
theorem C10_cell_filter_count_invariant :
    (∀ (entries : List (String × PyVal)) (cells : List PyVal) (skip : Finset String)
        (nb2 : PyVal) (n : Nat), skip ≠ ∅ →
        lookupStr "cells" entries = some (PyVal.list cells) →
        _filter_cells_by_tag (PyVal.dict entries) skip = Except.ok (nb2, n) →
        ∃ kept, nb2 = PyVal.dict (dictSet "cells" (PyVal.list kept) entries)
          ∧ n + kept.length = cells.length)
    ∧ (∀ (entries : List (String × PyVal)) (skip : Finset String), skip ≠ ∅ →
        lookupStr "cells" entries = Option.none →
        _filter_cells_by_tag (PyVal.dict entries) skip =
          Except.ok (PyVal.dict (dictSet "cells" (PyVal.list []) entries), 0)
        ∧ lookupStr "cells" (dictSet "cells" (PyVal.list []) entries)
            = some (PyVal.list [])) := by
  constructor
  · intro entries cells skip nb2 n hskip hcells h
    simp only [_filter_cells_by_tag, if_neg hskip, hcells, Option.getD_some, pyIter] at h
    rcases hfc : filterCells skip cells with e | ⟨kept, m⟩
    · rw [hfc] at h
      simp at h
    · rw [hfc] at h
      simp at h
      refine ⟨kept, h.1.symm, ?_⟩
      rw [← h.2]
      exact filterCells_length skip cells kept m hfc
  · intro entries skip hskip hnone
    refine ⟨?_, lookupStr_dictSet_self "cells" (PyVal.list []) entries⟩
    simp [_filter_cells_by_tag, if_neg hskip, hnone, pyIter, filterCells]

/-- Witness for C10: both halves at concrete inputs — a one-cell
document where the cell is dropped (count 1 + length 0 = length 1), and
a document with no `cells` key gaining an empty cells list with count
zero. -/
theorem C10_witness :
    (∃ kept, (PyVal.dict (dictSet "cells" (PyVal.list [])
        [("cells", PyVal.list
          [PyVal.dict [("metadata", PyVal.dict [("tags", PyVal.list [PyVal.str "slow"])])]])]))
        = PyVal.dict (dictSet "cells" (PyVal.list kept)
            [("cells", PyVal.list
              [PyVal.dict [("metadata", PyVal.dict [("tags", PyVal.list [PyVal.str "slow"])])]])])
        ∧ 1 + kept.length =
            [PyVal.dict [("metadata", PyVal.dict [("tags", PyVal.list [PyVal.str "slow"])])]].length)
    ∧ (_filter_cells_by_tag (PyVal.dict [("nbformat", PyVal.int 4)]) ({"slow"} : Finset String) =
        Except.ok (PyVal.dict (dictSet "cells" (PyVal.list []) [("nbformat", PyVal.int 4)]), 0)
      ∧ lookupStr "cells" (dictSet "cells" (PyVal.list []) [("nbformat", PyVal.int 4)])
          = some (PyVal.list [])) :=
  ⟨C10_cell_filter_count_invariant.1 _ _ ({"slow"} : Finset String) _ 1 (by decide) rfl rfl,
   C10_cell_filter_count_invariant.2 _ ({"slow"} : Finset String) (by decide) rfl⟩

/-! ### Claims about the driver and discovery -/

/-- Recognizes a "[ci] executing" progress line. -/
def isExecutingEvent : Event → Bool
  | .executing _ => true
  | _ => false

/-- Recognizes a line of the summary block. -/
def isSummaryEvent : Event → Bool
  | .summaryHeader => true
  | .summaryLine _ _ => true
  | .total _ => true
  | _ => false

lemma execute_notebook_events (readNb : String → Except CiError PyVal)
    (clientExec : PyVal → Except CiError Unit) (sec : String → Nat)
    (skip : Finset String) (p : String) (ev : Event)
    (h : ev ∈ (execute_notebook readNb clientExec sec skip p).1) :
    ∃ nm c, ev = Event.skipped nm c := by
  rcases hread : readNb p with e | nb
  · simp [execute_notebook, hread] at h
  · rcases hfil : _filter_cells_by_tag nb skip with e | ⟨nb2, skipped⟩
    · simp [execute_notebook, hread, hfil] at h
    · rcases hcl : clientExec nb2 with e | u
      · by_cases hs : skipped = 0
        · simp [execute_notebook, hread, hfil, hcl, hs] at h
        · simp [execute_notebook, hread, hfil, hcl, hs] at h
          exact ⟨pathName p, skipped, h⟩
      · by_cases hs : skipped = 0
        · simp [execute_notebook, hread, hfil, hcl, hs] at h
        · simp [execute_notebook, hread, hfil, hcl, hs] at h
          exact ⟨pathName p, skipped, h⟩

lemma runLoop_cons_err (ex : String → List Event × Except CiError RunResult)
    (q : String) (tail : List String) (evs : List Event) (e : CiError)
    (h : ex q = (evs, .error e)) :
    runLoop ex (q :: tail) = (Event.executing q :: evs, [], some e) := by
  simp [runLoop, h]

lemma runLoop_cons_ok (ex : String → List Event × Except CiError RunResult)
    (q : String) (tail : List String) (evs : List Event) (r : RunResult)
    (h : ex q = (evs, .ok r)) :
    runLoop ex (q :: tail) = (Event.executing q :: (evs ++ (runLoop ex tail).1),
      r :: (runLoop ex tail).2.1, (runLoop ex tail).2.2) := by
  simp [runLoop, h]

lemma runLoop_first_fail (ex : String → List Event × Except CiError RunResult)
    (hex : ∀ q ev, ev ∈ (ex q).1 → ∃ nm c, ev = Event.skipped nm c) :
    ∀ (l1 l2 : List String) (p : String) (e : CiError),
      (∀ q ∈ l1, isOkE (ex q).2 = true) → (ex p).2 = .error e →
      (runLoop ex (l1 ++ p :: l2)).2.2 = some e
      ∧ (runLoop ex (l1 ++ p :: l2)).1.filter isExecutingEvent
          = (l1 ++ [p]).map Event.executing
      ∧ (∀ ev ∈ (runLoop ex (l1 ++ p :: l2)).1, isSummaryEvent ev = false) := by
  intro l1
  induction l1 with
  | nil =>
      intro l2 p e _ hfail
      rcases hep : ex p with ⟨evs, res⟩
      rw [hep] at hfail
      simp only at hfail
      subst hfail
      rw [List.nil_append, runLoop_cons_err ex p l2 evs e hep]
      have hevs : ∀ ev ∈ evs, ev ∈ (ex p).1 := by
        intro ev hm
        rw [hep]
        exact hm
      refine ⟨rfl, ?_, ?_⟩
      · simp only [List.filter_cons]
        have : evs.filter isExecutingEvent = [] := by
          rw [List.filter_eq_nil_iff]
          intro ev hm
          obtain ⟨nm, c, hev⟩ := hex p ev (hevs ev hm)
          simp [hev, isExecutingEvent]
        simp [isExecutingEvent, this]
      · intro ev hm
        simp only [List.mem_cons] at hm
        rcases hm with hm | hm
        · simp [hm, isSummaryEvent]
        · obtain ⟨nm, c, hev⟩ := hex p ev (hevs ev hm)
          simp [hev, isSummaryEvent]
  | cons q rest ih =>
      intro l2 p e hok hfail
      have hq := (isOkE_iff (ex q).2).1 (hok q (by simp))
      obtain ⟨r, hr⟩ := hq
      rcases heq : ex q with ⟨evs, res⟩
      rw [heq] at hr
      simp only at hr
      subst hr
      have ihres := ih l2 p e (fun d hd => hok d (by simp [hd])) hfail
      rw [List.cons_append, runLoop_cons_ok ex q (rest ++ p :: l2) evs r heq]
      have hevs : ∀ ev ∈ evs, ev ∈ (ex q).1 := by
        intro ev hm
        rw [heq]
        exact hm
      have hfevs : evs.filter isExecutingEvent = [] := by
        rw [List.filter_eq_nil_iff]
        intro ev hm
        obtain ⟨nm, c, hev⟩ := hex q ev (hevs ev hm)
        simp [hev, isExecutingEvent]
      refine ⟨ihres.1, ?_, ?_⟩
      · simp only [List.filter_cons, List.filter_append, hfevs, ihres.2.1]
        simp [isExecutingEvent]
      · intro ev hm
        simp only [List.mem_cons, List.mem_append] at hm
        rcases hm with hm | hm | hm
        · simp [hm, isSummaryEvent]
        · obtain ⟨nm, c, hev⟩ := hex q ev (hevs ev hm)
          simp [hev, isSummaryEvent]
        · exact ihres.2.2 ev hm

lemma runLoop_none_ok (ex : String → List Event × Except CiError RunResult) :
    ∀ (l : List String) (evs : List Event) (rs : List RunResult),
      runLoop ex l = (evs, rs, Option.none) → ∀ q ∈ l, isOkE (ex q).2 = true := by
  intro l
  induction l with
  | nil => intro evs rs _ q hq; simp at hq
  | cons a tail ih =>
      intro evs rs h q hq
      rcases hea : ex a with ⟨evs0, res⟩
      rcases res with e | r
      · rw [runLoop_cons_err ex a tail evs0 e hea] at h
        simp at h
      · rw [runLoop_cons_ok ex a tail evs0 r hea] at h
        rcases List.mem_cons.1 hq with hq | hq
        · subst hq
          simp [hea, isOkE]
        · rcases htail : runLoop ex tail with ⟨evs2, rs2, err2⟩
          rw [htail] at h
          simp only [Prod.mk.injEq] at h
          exact ih evs2 rs2 (by rw [htail, h.2.2]) q hq

/-- C5: the batch is fail-fast. First half: if the notebooks at
positions before `p` succeed and `p`'s execution fails, the driver
exits with that error, the trace has progress lines exactly for the
prefix up to and including `p` (none for later notebooks), and no
summary line is ever printed. Second half: a run that exits cleanly had
every discovered notebook succeed, and its trace contains the summary
block. -/
theorem C5_fail_fast_batch (fs : FS) (readNb : String → Except CiError PyVal)
    (clientExec : PyVal → Except CiError Unit) (sec : String → Nat)
    (globs : List String) (skipStr : String) :
    (∀ (l1 l2 : List String) (p : String) (e : CiError),
        _iter_notebooks fs globs = l1 ++ p :: l2 →
        (∀ q ∈ l1,
          isOkE (execute_notebook readNb clientExec sec (_parse_tags skipStr) q).2 = true) →
        (execute_notebook readNb clientExec sec (_parse_tags skipStr) p).2 = .error e →
        ∃ evs, mainRun fs readNb clientExec sec globs skipStr = (evs, some e)
          ∧ evs.filter isExecutingEvent = (l1 ++ [p]).map Event.executing
          ∧ ∀ ev ∈ evs, isSummaryEvent ev = false)
    ∧ (∀ evs, mainRun fs readNb clientExec sec globs skipStr = (evs, Option.none) →
        (∀ q ∈ _iter_notebooks fs globs,
          isOkE (execute_notebook readNb clientExec sec (_parse_tags skipStr) q).2 = true)
        ∧ Event.summaryHeader ∈ evs) := by
  constructor
  · intro l1 l2 p e hdisc hok hfail
    have hall := runLoop_first_fail (execute_notebook readNb clientExec sec (_parse_tags skipStr))
      (fun q ev h => execute_notebook_events readNb clientExec sec (_parse_tags skipStr) q ev h)
      l1 l2 p e hok hfail
    rcases hrl : runLoop (execute_notebook readNb clientExec sec (_parse_tags skipStr))
        (l1 ++ p :: l2) with ⟨evs, rs, err⟩
    rw [hrl] at hall
    simp only at hall
    obtain ⟨h1, h2, h3⟩ := hall
    subst h1
    refine ⟨evs, ?_, h2, h3⟩
    simp only [mainRun, hdisc]
    rw [if_neg (by simp), hrl]
  · intro evs h
    by_cases hnil : _iter_notebooks fs globs = []
    · simp [mainRun, hnil] at h
    · rcases hrl : runLoop (execute_notebook readNb clientExec sec (_parse_tags skipStr))
          (_iter_notebooks fs globs) with ⟨evs0, rs, err⟩
      rcases err with _ | e
      · simp only [mainRun, if_neg hnil, hrl] at h
        simp only [Prod.mk.injEq] at h
        refine ⟨runLoop_none_ok _ _ evs0 rs hrl, ?_⟩
        rw [← h.1]
        simp
      · simp only [mainRun, if_neg hnil, hrl] at h
        simp at h

/-- Witness for C5: two discovered notebooks where the second fails at
read time — the driver returns that error, prints exactly two progress
lines, and no summary. -/
theorem C5_witness :
    ∃ evs,
      mainRun
        (FS.mk (fun _ => ["a.ipynb", "b.ipynb"]) (fun p => p) (fun _ => true))
        (fun p => if p = "b.ipynb" then Except.error (CiError.external "boom")
                  else Except.ok (PyVal.dict [("cells", PyVal.list [])]))
        (fun _ => Except.ok ()) (fun _ => 2) ["notebooks"] ""
        = (evs, some (CiError.external "boom"))
      ∧ evs.filter isExecutingEvent = (["a.ipynb"] ++ ["b.ipynb"]).map Event.executing
      ∧ ∀ ev ∈ evs, isSummaryEvent ev = false :=
  (C5_fail_fast_batch
      (FS.mk (fun _ => ["a.ipynb", "b.ipynb"]) (fun p => p) (fun _ => true))
      (fun p => if p = "b.ipynb" then Except.error (CiError.external "boom")
                else Except.ok (PyVal.dict [("cells", PyVal.list [])]))
      (fun _ => Except.ok ()) (fun _ => 2) ["notebooks"] "").1
    ["a.ipynb"] [] "b.ipynb" (CiError.external "boom") rfl (by decide) rfl

/-- C6: when discovery yields no notebook, the driver terminates with
the fatal no-match error that carries the supplied patterns, printing
nothing — in particular no progress line — and executing nothing. -/
theorem C6_no_match_is_fatal (fs : FS) (readNb : String → Except CiError PyVal)
    (clientExec : PyVal → Except CiError Unit) (sec : String → Nat)
    (globs : List String) (skipStr : String)
    (hdisc : _iter_notebooks fs globs = []) :
    mainRun fs readNb clientExec sec globs skipStr = ([], some (CiError.noMatch globs)) := by
  simp [mainRun, hdisc]

/-- Witness for C6: one pattern matching no file at all. -/
theorem C6_witness :
    mainRun (FS.mk (fun _ => []) (fun p => p) (fun _ => true))
      (fun _ => Except.ok (PyVal.dict [])) (fun _ => Except.ok ()) (fun _ => 0)
      ["notebooks/none.ipynb"] "slow"
      = ([], some (CiError.noMatch ["notebooks/none.ipynb"])) :=
  C6_no_match_is_fatal (FS.mk (fun _ => []) (fun p => p) (fun _ => true))
    (fun _ => Except.ok (PyVal.dict [])) (fun _ => Except.ok ()) (fun _ => 0)
    ["notebooks/none.ipynb"] "slow" rfl

/-- The filter the discoverer applies to each resolved match: a regular
file carrying the notebook extension. -/
def isNotebookFile (fs : FS) (p : String) : Bool :=
  fs.isFile p && (pathSuffix p == ".ipynb")

lemma isNotebookFile_iff (fs : FS) (p : String) :
    isNotebookFile fs p = true ↔ fs.isFile p = true ∧ pathSuffix p = ".ipynb" := by
  simp [isNotebookFile]

lemma iterAux_eq_specFirstSeenAux (fs : FS) :
    ∀ (l seen : List String),
      (∀ q ∈ seen, fs.isFile q = true ∧ pathSuffix q = ".ipynb") →
      iterAux fs seen l = specFirstSeenAux seen (l.filter (isNotebookFile fs)) := by
  intro l
  induction l with
  | nil => intro seen _; rfl
  | cons p rest ih =>
      intro seen hinv
      by_cases hseen : p ∈ seen
      · have hgood : isNotebookFile fs p = true := (isNotebookFile_iff fs p).2 (hinv p hseen)
        rw [List.filter_cons_of_pos hgood]
        simp only [iterAux, specFirstSeenAux, if_pos hseen]
        exact ih seen hinv
      · by_cases hgood : fs.isFile p = true ∧ pathSuffix p = ".ipynb"
        · rw [List.filter_cons_of_pos ((isNotebookFile_iff fs p).2 hgood)]
          simp only [iterAux, specFirstSeenAux, if_neg hseen, if_pos hgood]
          have hinv2 : ∀ q ∈ p :: seen, fs.isFile q = true ∧ pathSuffix q = ".ipynb" := by
            intro q hq
            rcases List.mem_cons.1 hq with hq | hq
            · subst hq; exact hgood
            · exact hinv q hq
          rw [ih (p :: seen) hinv2]
        · have hbad : isNotebookFile fs p = false := by
            rcases h : isNotebookFile fs p with _ | _
            · rfl
            · exact absurd ((isNotebookFile_iff fs p).1 h) hgood
          rw [List.filter_cons_of_neg (by simp [hbad])]
          simp only [iterAux, if_neg hseen, if_neg hgood]
          exact ih seen hinv

lemma mem_specFirstSeenAux :
    ∀ (l seen : List String) (p : String),
      p ∈ specFirstSeenAux seen l → p ∈ l ∧ p ∉ seen := by
  intro l
  induction l with
  | nil => intro seen p h; simp [specFirstSeenAux] at h
  | cons q rest ih =>
      intro seen p h
      by_cases hq : q ∈ seen
      · simp only [specFirstSeenAux, if_pos hq] at h
        obtain ⟨h1, h2⟩ := ih seen p h
        exact ⟨by simp [h1], h2⟩
      · simp only [specFirstSeenAux, if_neg hq] at h
        rcases List.mem_cons.1 h with h | h
        · subst h
          exact ⟨by simp, hq⟩
        · obtain ⟨h1, h2⟩ := ih (q :: seen) p h
          refine ⟨by simp [h1], fun hmem => h2 (by simp [hmem])⟩

lemma mem_specFirstSeenAux_of_mem :
    ∀ (l seen : List String) (p : String),
      p ∈ l → p ∉ seen → p ∈ specFirstSeenAux seen l := by
  intro l
  induction l with
  | nil => intro seen p h _; simp at h
  | cons q rest ih =>
      intro seen p h hns
      by_cases hpq : p = q
      · subst hpq
        have hq : p ∉ seen := hns
        simp only [specFirstSeenAux, if_neg hq]
        simp
      · rcases List.mem_cons.1 h with h | h
        · exact absurd h hpq
        · by_cases hq : q ∈ seen
          · simp only [specFirstSeenAux, if_pos hq]
            exact ih seen p h hns
          · simp only [specFirstSeenAux, if_neg hq]
            refine List.mem_cons_of_mem q (ih (q :: seen) p h ?_)
            intro hmem
            rcases List.mem_cons.1 hmem with hmem | hmem
            · exact hpq hmem
            · exact hns hmem

lemma specFirstSeenAux_nodup :
    ∀ (l seen : List String), (specFirstSeenAux seen l).Nodup := by
  intro l
  induction l with
  | nil => intro seen; simp [specFirstSeenAux]
  | cons q rest ih =>
      intro seen
      by_cases hq : q ∈ seen
      · simp only [specFirstSeenAux, if_pos hq]
        exact ih seen
      · simp only [specFirstSeenAux, if_neg hq]
        refine List.Nodup.cons ?_ (ih (q :: seen))
        intro hmem
        exact (mem_specFirstSeenAux rest (q :: seen) q hmem).2 (by simp)

/-- C7: discovery equals the spec's first-seen de-duplication of the
resolved glob matches restricted to notebook files; hence it has no
duplicates, every returned path is a matching notebook file, and every
matching notebook file is returned (once, at the position of its first
match). -/
theorem C7_discovery_dedup_first_seen (fs : FS) (globs : List String) :
    _iter_notebooks fs globs =
      specFirstSeen
        (((globs.map fun pat => (fs.globMatches pat).map fs.resolve).flatten).filter
          (isNotebookFile fs))
    ∧ (_iter_notebooks fs globs).Nodup
    ∧ (∀ p ∈ _iter_notebooks fs globs,
        fs.isFile p = true ∧ pathSuffix p = ".ipynb"
          ∧ p ∈ (globs.map fun pat => (fs.globMatches pat).map fs.resolve).flatten)
    ∧ (∀ p ∈ (globs.map fun pat => (fs.globMatches pat).map fs.resolve).flatten,
        isNotebookFile fs p = true → p ∈ _iter_notebooks fs globs) := by
  have hmain : _iter_notebooks fs globs =
      specFirstSeen
        (((globs.map fun pat => (fs.globMatches pat).map fs.resolve).flatten).filter
          (isNotebookFile fs)) :=
    iterAux_eq_specFirstSeenAux fs
      ((globs.map fun pat => (fs.globMatches pat).map fs.resolve).flatten) []
      (by intro q hq; simp at hq)
  refine ⟨hmain, ?_, ?_, ?_⟩
  · rw [hmain]
    exact specFirstSeenAux_nodup _ []
  · intro p hp
    rw [hmain] at hp
    have h1 := (mem_specFirstSeenAux _ [] p hp).1
    have h2 := List.mem_filter.1 h1
    obtain ⟨hfile, hsuf⟩ := (isNotebookFile_iff fs p).1 h2.2
    exact ⟨hfile, hsuf, h2.1⟩
  · intro p hp hgood
    rw [hmain]
    exact mem_specFirstSeenAux_of_mem _ [] p (List.mem_filter.2 ⟨hp, hgood⟩) (by simp)

/-! ### Lemmas about the string primitives -/

lemma splitChar_ne_nil (c : Char) (l : List Char) : splitChar c l ≠ [] := by
  induction l with
  | nil => simp [splitChar]
  | cons a rest ih =>
      rcases h : splitChar c rest with _ | ⟨r, rs⟩
      · simp [splitChar, h]
      · by_cases hac : a = c <;> simp [splitChar, h, hac]

lemma not_mem_splitChar (c : Char) :
    ∀ (l : List Char), ∀ p ∈ splitChar c l, c ∉ p := by
  intro l
  induction l with
  | nil =>
      intro p hp
      simp [splitChar] at hp
      simp [hp]
  | cons a rest ih =>
      intro p hp
      rcases h : splitChar c rest with _ | ⟨r, rs⟩
      · exact absurd h (splitChar_ne_nil c rest)
      · simp only [splitChar, h] at hp
        by_cases hac : a = c
        · rw [if_pos hac] at hp
          rcases List.mem_cons.1 hp with hp | hp
          · subst hp; simp
          · exact ih p (by rw [h]; exact hp)
        · rw [if_neg hac] at hp
          rcases List.mem_cons.1 hp with hp | hp
          · subst hp
            intro hmem
            rcases List.mem_cons.1 hmem with hmem | hmem
            · exact hac hmem.symm
            · exact ih r (by rw [h]; simp) hmem
          · exact ih p (by rw [h]; simp [hp])

lemma splitChar_of_not_mem (c : Char) :
    ∀ (p : List Char), c ∉ p → splitChar c p = [p] := by
  intro p
  induction p with
  | nil => intro _; rfl
  | cons a p2 ih =>
      intro h
      have hac : ¬(a = c) := fun hh => h (by simp [hh])
      have hcp : c ∉ p2 := fun hh => h (by simp [hh])
      simp [splitChar, ih hcp, hac]

lemma splitChar_append_sep (c : Char) :
    ∀ (p ys : List Char), c ∉ p → splitChar c (p ++ c :: ys) = p :: splitChar c ys := by
  intro p
  induction p with
  | nil =>
      intro ys _
      rcases h : splitChar c ys with _ | ⟨r, rs⟩
      · exact absurd h (splitChar_ne_nil c ys)
      · simp [splitChar, h]
  | cons a p2 ih =>
      intro ys h
      have hac : ¬(a = c) := fun hh => h (by simp [hh])
      have hcp : c ∉ p2 := fun hh => h (by simp [hh])
      simp [splitChar, ih ys hcp, hac]

lemma splitChar_intercalateChar (c : Char) :
    ∀ (L : List (List Char)), L ≠ [] → (∀ p ∈ L, c ∉ p) →
      splitChar c (intercalateChar [c] L) = L := by
  intro L
  induction L with
  | nil => intro h _; exact absurd rfl h
  | cons p L2 ih =>
      intro _ hmem
      cases L2 with
      | nil => exact splitChar_of_not_mem c p (hmem p (by simp))
      | cons q rest =>
          have h1 : intercalateChar [c] (p :: q :: rest)
              = p ++ c :: intercalateChar [c] (q :: rest) := by
            simp [intercalateChar]
          rw [h1, splitChar_append_sep c p _ (hmem p (by simp)),
            ih (by simp) (fun x hx => hmem x (by simp [hx]))]

lemma intercalateChar_ne_nil (c : Char) (L : List (List Char))
    (hne : L ≠ []) (hp : ∀ p ∈ L, p ≠ []) : intercalateChar [c] L ≠ [] := by
  cases L with
  | nil => exact absurd rfl hne
  | cons p L2 =>
      cases L2 with
      | nil => exact hp p (by simp)
      | cons q rest => simp [intercalateChar]

lemma head?_dropWhile_not (p : Char → Bool) (l : List Char) (a : Char)
    (h : (l.dropWhile p).head? = some a) : p a = false := by
  induction l with
  | nil => simp at h
  | cons b l ih =>
      rw [List.dropWhile_cons] at h
      rcases hb : p b with _ | _
      · rw [hb] at h
        simp at h
        rw [← h]
        exact hb
      · rw [hb] at h
        simp at h
        exact ih h

lemma dropWhile_eq_self_of_head? {p : Char → Bool} {l : List Char} {b : Char}
    (h : l.head? = some b) (hb : p b = false) : l.dropWhile p = l := by
  cases l with
  | nil => simp at h
  | cons a l =>
      simp at h
      rw [List.dropWhile_cons, h, hb]
      simp

lemma getLast?_dropWhile_eq (p : Char → Bool) (m : List Char)
    (hne : m.dropWhile p ≠ []) : (m.dropWhile p).getLast? = m.getLast? := by
  obtain ⟨pre, hpre⟩ := List.dropWhile_suffix (l := m) p
  conv_rhs => rw [← hpre]
  exact (List.getLast?_append_of_ne_nil pre hne).symm

lemma trimChar_head? (l : List Char) (a : Char)
    (h : (trimChar l).head? = some a) : a.isWhitespace = false := by
  rw [trimChar, List.head?_reverse] at h
  have hBne : (((l.dropWhile Char.isWhitespace).reverse).dropWhile Char.isWhitespace) ≠ [] := by
    intro hB
    rw [hB] at h
    simp at h
  rw [getLast?_dropWhile_eq Char.isWhitespace ((l.dropWhile Char.isWhitespace).reverse) hBne,
    List.getLast?_reverse] at h
  exact head?_dropWhile_not Char.isWhitespace l a h

lemma trimChar_getLast? (l : List Char) (a : Char)
    (h : (trimChar l).getLast? = some a) : a.isWhitespace = false := by
  rw [trimChar, List.getLast?_reverse] at h
  exact head?_dropWhile_not Char.isWhitespace _ a h

lemma trimChar_idem (l : List Char) : trimChar (trimChar l) = trimChar l := by
  rcases hT : trimChar l with _ | ⟨a, t⟩
  · rfl
  · rw [← hT]
    have hhead : (trimChar l).head? = some a := by rw [hT]; rfl
    have h1 : (trimChar l).dropWhile Char.isWhitespace = trimChar l :=
      dropWhile_eq_self_of_head? hhead (trimChar_head? l a hhead)
    have hTne : trimChar l ≠ [] := by rw [hT]; simp
    obtain ⟨b, hb⟩ : ∃ b, (trimChar l).getLast? = some b := by
      rcases hg : (trimChar l).getLast? with _ | b
      · exact absurd (List.getLast?_eq_none_iff.1 hg) hTne
      · exact ⟨b, rfl⟩
    have h2 : (trimChar l).reverse.dropWhile Char.isWhitespace = (trimChar l).reverse :=
      dropWhile_eq_self_of_head? (by rw [List.head?_reverse]; exact hb)
        (trimChar_getLast? l b hb)
    calc trimChar (trimChar l)
        = (((trimChar l).dropWhile Char.isWhitespace).reverse.dropWhile
            Char.isWhitespace).reverse := rfl
      _ = ((trimChar l).reverse.dropWhile Char.isWhitespace).reverse := by rw [h1]
      _ = (trimChar l).reverse.reverse := by rw [h2]
      _ = trimChar l := List.reverse_reverse _

lemma mem_trimChar (l : List Char) (x : Char) (h : x ∈ trimChar l) : x ∈ l := by
  rw [trimChar, List.mem_reverse] at h
  have h2 := (List.dropWhile_suffix Char.isWhitespace).subset h
  rw [List.mem_reverse] at h2
  exact (List.dropWhile_suffix Char.isWhitespace).subset h2

lemma mk_eq_iff_data (l : List Char) (t : String) : String.mk l = t ↔ l = t.data := by
  rw [String.ext_iff]

lemma eq_empty_iff_data (t : String) : t = "" ↔ t.data = [] := by
  simp [String.ext_iff]

/-! ### Claims about the Tag Parser -/

/-- C8: tag parsing returns exactly the set of whitespace-trimmed,
non-empty pieces between commas: membership is characterized by the
split pieces, every parsed tag is already trimmed, and the degenerate
inputs the spec lists all parse to the empty set. (The Lean model is a
total function, matching the claim that no input makes parsing fail.) -/
theorem C8_parse_tags_spec :
    (∀ (s t : String),
        t ∈ _parse_tags s ↔ t ≠ "" ∧ ∃ u ∈ splitChar ',' s.data, trimChar u = t.data)
    ∧ (∀ (s t : String), t ∈ _parse_tags s → trimChar t.data = t.data)
    ∧ _parse_tags "" = ∅ ∧ _parse_tags "," = ∅ ∧ _parse_tags " , , " = ∅ := by
  have hmem : ∀ (s t : String),
      t ∈ _parse_tags s ↔ t ≠ "" ∧ ∃ u ∈ splitChar ',' s.data, trimChar u = t.data := by
    intro s t
    by_cases hs : s = ""
    · subst hs
      constructor
      · intro h
        simp [_parse_tags] at h
      · rintro ⟨hne, u, hu, htrim⟩
        have hd : ("" : String).data = ([] : List Char) := rfl
        rw [hd] at hu
        have hu2 : u = [] := by simpa [splitChar] using hu
        rw [hu2] at htrim
        have hdata : t.data = [] := by simpa [trimChar] using htrim.symm
        exact absurd ((eq_empty_iff_data t).2 hdata) hne
    · simp only [_parse_tags, if_neg hs, List.mem_toFinset, List.mem_map, List.mem_filter,
        decide_eq_true_eq]
      constructor
      · rintro ⟨u, ⟨hu, hne⟩, hmk⟩
        have hdata : trimChar u = t.data := (mk_eq_iff_data _ t).1 hmk
        refine ⟨?_, u, hu, hdata⟩
        intro ht
        rw [(eq_empty_iff_data t).1 ht] at hdata
        exact hne hdata
      · rintro ⟨hne, u, hu, htrim⟩
        refine ⟨u, ⟨hu, ?_⟩, (mk_eq_iff_data _ t).2 htrim⟩
        rw [htrim]
        intro hd
        exact hne ((eq_empty_iff_data t).2 hd)
  refine ⟨hmem, ?_, by decide, by decide, by decide⟩
  intro s t h
  obtain ⟨hne, u, hu, htrim⟩ := (hmem s t).1 h
  rw [← htrim]
  exact trimChar_idem u

/-- Witness for C8: the tag `slow` inside `" slow , ci-skip"` satisfies
the membership characterization and is trim-fixed. -/
theorem C8_witness :
    (("slow" : String) ∈ _parse_tags " slow , ci-skip" ↔
      ("slow" : String) ≠ "" ∧ ∃ u ∈ splitChar ',' (" slow , ci-skip" : String).data,
        trimChar u = ("slow" : String).data)
    ∧ trimChar ("slow" : String).data = ("slow" : String).data :=
  ⟨C8_parse_tags_spec.1 " slow , ci-skip" "slow",
   C8_parse_tags_spec.2.1 " slow , ci-skip" "slow" (by decide)⟩

/-- Raw membership characterization of `_parse_tags`, valid for every
input including the empty string. -/
lemma mem_parse_tags (s t : String) :
    t ∈ _parse_tags s ↔
      ∃ u, u ∈ splitChar ',' s.data ∧ trimChar u ≠ [] ∧ String.mk (trimChar u) = t := by
  by_cases hs : s = ""
  · subst hs
    constructor
    · intro h
      simp [_parse_tags] at h
    · rintro ⟨u, hu, hne, _⟩
      have hd : ("" : String).data = ([] : List Char) := rfl
      rw [hd] at hu
      have hu2 : u = [] := by simpa [splitChar] using hu
      rw [hu2] at hne
      simp [trimChar] at hne
  · simp only [_parse_tags, if_neg hs, List.mem_toFinset, List.mem_map, List.mem_filter,
      decide_eq_true_eq]
    constructor
    · rintro ⟨u, ⟨hu, hne⟩, hmk⟩
      exact ⟨u, hu, hne, hmk⟩
    · rintro ⟨u, hu, hne, hmk⟩
      exact ⟨u, ⟨hu, hne⟩, hmk⟩

lemma parse_tags_ne_empty (s t : String) (h : t ∈ _parse_tags s) : t.data ≠ [] := by
  obtain ⟨u, _, hne, hmk⟩ := (mem_parse_tags s t).1 h
  rw [← (mk_eq_iff_data _ t).1 hmk]
  exact hne

lemma parse_tags_trimmed (s t : String) (h : t ∈ _parse_tags s) :
    trimChar t.data = t.data := by
  obtain ⟨u, _, _, hmk⟩ := (mem_parse_tags s t).1 h
  rw [← (mk_eq_iff_data _ t).1 hmk]
  exact trimChar_idem u

lemma parse_tags_no_comma (s t : String) (h : t ∈ _parse_tags s) : ',' ∉ t.data := by
  obtain ⟨u, hu, _, hmk⟩ := (mem_parse_tags s t).1 h
  rw [← (mk_eq_iff_data _ t).1 hmk]
  intro hc
  exact not_mem_splitChar ',' s.data u hu (mem_trimChar u ',' hc)

/-- The spec's canonical rendering of a tag set: the sorted,
de-duplicated tags re-joined with commas. -/
def canonicalRender (ts : Finset String) : String :=
  String.mk (intercalateChar [','] ((ts.sort (· ≤ ·)).map String.data))

/-- C9: parsing the canonical rendering (sorted, de-duplicated,
comma-joined) of a parse result gives back exactly that parse result,
for every input string. -/
theorem C9_parse_tags_idempotent (s : String) :
    _parse_tags (canonicalRender (_parse_tags s)) = _parse_tags s := by
  rcases hL : (_parse_tags s).sort (· ≤ ·) with _ | ⟨t0, L0⟩
  · have hT : _parse_tags s = ∅ := by
      have hts := Finset.sort_toFinset (· ≤ ·) (_parse_tags s)
      rw [hL] at hts
      simpa using hts.symm
    have hcr : canonicalRender (_parse_tags s) = "" := by
      rw [canonicalRender, hL]
      rfl
    rw [hcr, hT]
    rfl
  · have hmemL : ∀ t ∈ t0 :: L0, t ∈ _parse_tags s := by
      intro t ht
      rw [← hL] at ht
      exact (Finset.mem_sort (α := String) (· ≤ ·)).1 ht
    have hpieces_ne : ∀ p ∈ (t0 :: L0).map String.data, p ≠ [] := by
      intro p hp
      obtain ⟨t, ht, hpt⟩ := List.mem_map.1 hp
      rw [← hpt]
      exact parse_tags_ne_empty s t (hmemL t ht)
    have hpieces_nc : ∀ p ∈ (t0 :: L0).map String.data, ',' ∉ p := by
      intro p hp
      obtain ⟨t, ht, hpt⟩ := List.mem_map.1 hp
      rw [← hpt]
      exact parse_tags_no_comma s t (hmemL t ht)
    have hrender : (canonicalRender (_parse_tags s)).data
        = intercalateChar [','] ((t0 :: L0).map String.data) := by
      rw [canonicalRender, hL]
    have hne2 : canonicalRender (_parse_tags s) ≠ "" := by
      intro h
      rw [eq_empty_iff_data, hrender] at h
      exact intercalateChar_ne_nil ',' ((t0 :: L0).map String.data) (by simp) hpieces_ne h
    have hsplit : splitChar ',' (canonicalRender (_parse_tags s)).data
        = (t0 :: L0).map String.data := by
      rw [hrender]
      exact splitChar_intercalateChar ',' _ (by simp) hpieces_nc
    have hstep : _parse_tags (canonicalRender (_parse_tags s)) =
        ((((t0 :: L0).map String.data).filter (fun u => trimChar u ≠ [])).map
          (fun u => String.mk (trimChar u))).toFinset := by
      generalize hX : canonicalRender (_parse_tags s) = X at hne2 hsplit
      simp only [_parse_tags, if_neg hne2, hsplit]
    rw [hstep]
    have hfilter : ((t0 :: L0).map String.data).filter (fun u => trimChar u ≠ [])
        = (t0 :: L0).map String.data := by
      rw [List.filter_eq_self]
      intro p hp
      rw [decide_eq_true_eq]
      obtain ⟨t, ht, hpt⟩ := List.mem_map.1 hp
      rw [← hpt, parse_tags_trimmed s t (hmemL t ht)]
      exact parse_tags_ne_empty s t (hmemL t ht)
    rw [hfilter]
    have hmap : ((t0 :: L0).map String.data).map (fun u => String.mk (trimChar u))
        = t0 :: L0 := by
      rw [List.map_map]
      have hid : ∀ t ∈ t0 :: L0, ((fun u => String.mk (trimChar u)) ∘ String.data) t = t := by
        intro t ht
        simp only [Function.comp]
        rw [parse_tags_trimmed s t (hmemL t ht)]
      calc (t0 :: L0).map ((fun u => String.mk (trimChar u)) ∘ String.data)
          = (t0 :: L0).map id := List.map_congr_left hid
        _ = t0 :: L0 := List.map_id _
    rw [hmap]
    have hts := Finset.sort_toFinset (· ≤ ·) (_parse_tags s)
    rw [hL] at hts
    exact hts
